import Mathlib

/-!
Verification of the adaptive ring-layout engine of `src/script.js`
(`layoutRings` and its inner `canFit` predicate, lines 82-131).

Modelling conventions:
* JavaScript numbers are modelled as exact rationals (`ℚ`); `Math.PI` is
  modelled by `piRat`, the 16-significant-digit decimal value of the
  double-precision constant `Math.PI`.
* Candidate bubble sizes (`low`, `high`, `mid`, `best`) are integers in the
  source (integer start values, `Math.floor` midpoints, steps of 2), so they
  are modelled as `ℤ`; `Math.floor((low + high) / 2)` is `Int.fdiv _ 2`.
* The `for (let r = safeInnerRadius; ...)` loop of `canFit` is modelled by
  `buildRingsFuel`, a fuel-indexed recursion.  Every iteration places at
  least one item (capacity is clamped to at least 4 and the loop guard
  requires unplaced items), so fuel `peopleCount` is enough;
  `buildRingsFuel_fuel_irrelevant` proves the result does not depend on the
  fuel from that point on, i.e. the embedding computes the limit of the
  unbounded loop.
* The binary-search loop runs for at most 18 iterations in the source
  (`for (let i = 0; i < 18 && low <= high; ...)`); `searchAux` takes that
  bound as its fuel argument, so the embedding is exact.  `searchAux` also
  records the list of candidate sizes passed to `canFit` (field `tested`);
  that field is write-only instrumentation and never influences the result.
-/

/-- The double-precision value of `Math.PI`, as an exact rational. -/
def piRat : ℚ := 3.141592653589793

/-- One ring descriptor, as pushed onto `rings` in `canFit`
(`src/script.js` lines 102-107). -/
structure RingDesc where
  radius : ℚ
  count : ℕ
  size : ℤ
  spin : ℤ
  deriving Repr, DecidableEq

/-- The value returned by `canFit` (`src/script.js` line 111). -/
structure FitResult where
  fits : Bool
  rings : List RingDesc
  deriving Repr, DecidableEq

/-- The value returned by `layoutRings` (`src/script.js` line 130). -/
structure LayoutResult where
  rings : List RingDesc
  bubbleSize : ℤ
  deriving Repr, DecidableEq

/-- `Math.max(4, Math.floor(circumference / step))` with
`circumference = 2 * Math.PI * r` and `step = size * 1.2`
(`src/script.js` lines 98-100). -/
def ringCapacity (r s : ℚ) : ℤ :=
  max 4 ⌊2 * piRat * r / (s * 1.2)⌋

/-- `Math.max(26, Math.floor(size * (1 - ringIndex * 0.03)))`
(`src/script.js` line 105). -/
def ringSize (s : ℚ) (ringIndex : ℕ) : ℤ :=
  max 26 ⌊s * (1 - (ringIndex : ℚ) * 0.03)⌋

/-- `(ringIndex % 2 === 0) ? 80 - ringIndex * 6 : -(80 - ringIndex * 6)`
(`src/script.js` line 106). -/
def ringSpin (ringIndex : ℕ) : ℤ :=
  if ringIndex % 2 = 0 then 80 - (ringIndex : ℤ) * 6 else -(80 - (ringIndex : ℤ) * 6)

/-- The `for (let r = safeInnerRadius; r <= maxRadius && placed < peopleCount;
r += ringGap)` loop of `canFit` (`src/script.js` lines 97-110), carrying
`remaining = peopleCount - placed` instead of `placed`.  Returns the built
ring list together with the final `remaining`. -/
def buildRingsFuel (maxRadius s ringGap : ℚ) : ℕ → ℚ → ℕ → ℕ → List RingDesc × ℕ
  | 0, _, remaining, _ => ([], remaining)
  | fuel + 1, r, remaining, ringIndex =>
    if r ≤ maxRadius ∧ 0 < remaining then
      let available : ℕ := min (ringCapacity r s).toNat remaining
      let rest := buildRingsFuel maxRadius s ringGap fuel (r + ringGap)
        (remaining - available) (ringIndex + 1)
      (⟨r, available, ringSize s ringIndex, ringSpin ringIndex⟩ :: rest.1, rest.2)
    else ([], remaining)

/-- The `canFit` closure of `layoutRings` (`src/script.js` lines 91-112).
`fits` is `placed >= peopleCount`, which (since `placed` never exceeds
`peopleCount`) is `remaining == 0`. -/
def canFit (cw ch centerRadiusPx : ℚ) (peopleCount : ℕ) (size : ℤ) : FitResult :=
  let maxRadius := min cw ch / 2 - 30
  let ringGap : ℚ := max ((size : ℚ) * 0.95) 46
  let safeInnerRadius : ℚ := max (centerRadiusPx + (size : ℚ) * 0.65 + 20) 90
  let out := buildRingsFuel maxRadius (size : ℚ) ringGap peopleCount safeInnerRadius
    peopleCount 0
  ⟨out.2 == 0, out.1⟩

/-- The state produced by the binary-search loop of `layoutRings`
(`src/script.js` lines 114-124), plus the instrumentation field `tested`
recording every candidate size on which `canFit` was evaluated. -/
structure SearchOut where
  best : ℤ
  bestLayout : Option (List RingDesc)
  tested : List ℤ
  deriving Repr, DecidableEq

/-- The binary-search loop of `layoutRings` (`src/script.js` lines 114-124);
the fuel argument is the source's iteration budget of 18. -/
def searchAux (cw ch centerRadiusPx : ℚ) (peopleCount : ℕ) :
    ℕ → ℤ → ℤ → ℤ → Option (List RingDesc) → List ℤ → SearchOut
  | 0, _, _, best, bestLayout, tested => ⟨best, bestLayout, tested⟩
  | fuel + 1, low, high, best, bestLayout, tested =>
    if low ≤ high then
      let mid := Int.fdiv (low + high) 2
      let result := canFit cw ch centerRadiusPx peopleCount mid
      if result.fits then
        searchAux cw ch centerRadiusPx peopleCount fuel (mid + 2) high mid
          (some result.rings) (tested ++ [mid])
      else
        searchAux cw ch centerRadiusPx peopleCount fuel low (mid - 2) best bestLayout
          (tested ++ [mid])
    else ⟨best, bestLayout, tested⟩

/-- The initial upper bound of the search range:
`Math.max(56, Math.floor(Math.min(w, h) / 12))` (`src/script.js` line 87). -/
def searchHigh (cw ch : ℚ) : ℤ :=
  max 56 ⌊min cw ch / 12⌋

/-- The whole binary search of `layoutRings`, started from
`low = 28`, `high = searchHigh`, `best = 40`, `bestLayout = null`. -/
def layoutSearch (cw ch : ℚ) (peopleCount : ℕ) (centerRadiusPx : ℚ) : SearchOut :=
  searchAux cw ch centerRadiusPx peopleCount 18 28 (searchHigh cw ch) 40 none []

/-- `layoutRings` (`src/script.js` lines 82-131): run the binary search; if it
never recorded a fitting layout, fall back to `canFit(best)` with the initial
`best = 40`. -/
def layoutRings (cw ch : ℚ) (peopleCount : ℕ) (centerRadiusPx : ℚ) : LayoutResult :=
  let out := layoutSearch cw ch peopleCount centerRadiusPx
  match out.bestLayout with
  | some l => ⟨l, out.best⟩
  | none => ⟨(canFit cw ch centerRadiusPx peopleCount 40).rings, out.best⟩

/-- Sum of the per-ring `count` fields of a plan. -/
def sumCounts (rings : List RingDesc) : ℕ :=
  (rings.map RingDesc.count).sum

/-- The literal reading of claim C1: whenever any integer candidate in the
search range `[28, searchHigh]` is feasible, the returned `bubbleSize` is the
largest feasible candidate of that whole range. -/
def largestFitClaim (cw ch : ℚ) (n : ℕ) (c : ℚ) : Prop :=
  (∃ s : ℤ, 28 ≤ s ∧ s ≤ searchHigh cw ch ∧ (canFit cw ch c n s).fits = true) →
  (28 ≤ (layoutRings cw ch n c).bubbleSize ∧
   (layoutRings cw ch n c).bubbleSize ≤ searchHigh cw ch ∧
   (canFit cw ch c n (layoutRings cw ch n c).bubbleSize).fits = true ∧
   ∀ s : ℤ, 28 ≤ s → s ≤ searchHigh cw ch → (canFit cw ch c n s).fits = true →
     s ≤ (layoutRings cw ch n c).bubbleSize)

/-- The literal reading of claim C2: if any candidate size in the search range
`[28, searchHigh]` is feasible, the returned plan's ring counts sum to at
least the item count. -/
def capacitySpecClaim (cw ch : ℚ) (n : ℕ) (c : ℚ) : Prop :=
  (∃ s : ℤ, 28 ≤ s ∧ s ≤ searchHigh cw ch ∧ (canFit cw ch c n s).fits = true) →
  n ≤ sumCounts (layoutRings cw ch n c).rings

/-- The literal reading of claim C8: some orientation assigns every
even-indexed ring's spin one sign and every odd-indexed ring's spin the
opposite sign, and the magnitude of the spin at ring index `i` is `80 - 6*i`. -/
def spinSpecClaim (res : LayoutResult) : Prop :=
  ∃ pos : Bool, ∀ (i : ℕ) (rg : RingDesc), res.rings[i]? = some rg →
    ((0 < rg.spin ↔ (if i % 2 = 0 then pos else !pos) = true) ∧
     |rg.spin| = 80 - 6 * (i : ℤ))

/-- Invariant carried by the binary-search loop. -/
def SearchInv (cw ch c : ℚ) (n : ℕ) (hi low high best : ℤ)
    (bl : Option (List RingDesc)) (tested : List ℤ) : Prop :=
  28 ≤ low ∧ high ≤ hi ∧
  (bl = none → best = 40 ∧ ∀ t ∈ tested, (canFit cw ch c n t).fits = false) ∧
  (∀ l, bl = some l →
      l = (canFit cw ch c n best).rings ∧ (canFit cw ch c n best).fits = true ∧
      28 ≤ best ∧ best ≤ hi ∧ best + 2 ≤ low) ∧
  (∀ t ∈ tested, (canFit cw ch c n t).fits = true → t ≤ best)

/-- What the invariant gives about the final state of the loop. -/
def SearchPost (cw ch c : ℚ) (n : ℕ) (hi : ℤ) (out : SearchOut) : Prop :=
  (out.bestLayout = none → out.best = 40 ∧
      ∀ t ∈ out.tested, (canFit cw ch c n t).fits = false) ∧
  (∀ l, out.bestLayout = some l →
      l = (canFit cw ch c n out.best).rings ∧
      (canFit cw ch c n out.best).fits = true ∧
      28 ≤ out.best ∧ out.best ≤ hi) ∧
  (∀ t ∈ out.tested, (canFit cw ch c n t).fits = true → t ≤ out.best)

/-! ### Basic lemmas about the ring builder -/

/-- The capacity clamp `Math.max(4, ...)` guarantees at least 4. -/
theorem ringCapacity_ge_four (r s : ℚ) : 4 ≤ ringCapacity r s :=
  le_max_left _ _

theorem ringCapacity_toNat_pos (r s : ℚ) : 1 ≤ (ringCapacity r s).toNat := by
  have h := ringCapacity_ge_four r s
  omega

/-- The `canFit` loop places at least one item per iteration, so any fuel of at
least `remaining` computes the limit of the source's unbounded loop. -/
theorem buildRingsFuel_fuel_irrelevant (m s g : ℚ) :
    ∀ f1 f2 r remaining i, remaining ≤ f1 → remaining ≤ f2 →
      buildRingsFuel m s g f1 r remaining i = buildRingsFuel m s g f2 r remaining i := by
  intro f1
  induction f1 with
  | zero =>
    intro f2 r remaining i h1 _
    interval_cases remaining
    cases f2 with
    | zero => rfl
    | succ f2 => simp [buildRingsFuel]
  | succ f1 ih =>
    intro f2 r remaining i h1 h2
    cases f2 with
    | zero =>
      interval_cases remaining
      simp [buildRingsFuel]
    | succ f2 =>
      simp only [buildRingsFuel]
      by_cases hg : r ≤ m ∧ 0 < remaining
      · simp only [if_pos hg]
        have hav : 1 ≤ min (ringCapacity r s).toNat remaining := by
          have := ringCapacity_toNat_pos r s
          omega
        rw [ih f2 (r + g) (remaining - min (ringCapacity r s).toNat remaining) (i + 1)
          (by omega) (by omega)]
      · simp only [if_neg hg]

/-- The counts pushed by the loop plus the final `remaining` recover the
initial `remaining` (i.e. `placed` never exceeds `peopleCount`). -/
theorem buildRingsFuel_sum (m s g : ℚ) :
    ∀ fuel r remaining i,
      sumCounts (buildRingsFuel m s g fuel r remaining i).1
        + (buildRingsFuel m s g fuel r remaining i).2 = remaining := by
  intro fuel
  induction fuel with
  | zero => intro r remaining i; simp [buildRingsFuel, sumCounts]
  | succ fuel ih =>
    intro r remaining i
    simp only [buildRingsFuel]
    by_cases hg : r ≤ m ∧ 0 < remaining
    · simp only [if_pos hg]
      have := ih (r + g) (remaining - min (ringCapacity r s).toNat remaining) (i + 1)
      simp only [sumCounts, List.map_cons, List.sum_cons] at this ⊢
      omega
    · simp only [if_neg hg]; simp [sumCounts]

/-- Shape of every ring pushed by the loop: the ring at position `idx` of the
produced list sits at radius `r + idx * ringGap` and carries the size and spin
determined by ring index `i + idx`. -/
theorem buildRingsFuel_get (m s g : ℚ) :
    ∀ (fuel : ℕ) (r : ℚ) (remaining i idx : ℕ) (rg : RingDesc),
      (buildRingsFuel m s g fuel r remaining i).1[idx]? = some rg →
      rg.radius = r + (idx : ℚ) * g ∧ rg.size = ringSize s (i + idx) ∧
        rg.spin = ringSpin (i + idx) := by
  intro fuel
  induction fuel with
  | zero =>
    intro r remaining i idx rg h
    simp [buildRingsFuel] at h
  | succ fuel ih =>
    intro r remaining i idx rg h
    by_cases hg : r ≤ m ∧ 0 < remaining
    · simp only [buildRingsFuel, if_pos hg] at h
      cases idx with
      | zero =>
        simp only [List.getElem?_cons_zero, Option.some_inj] at h
        subst h
        simp
      | succ idx =>
        simp only [List.getElem?_cons_succ] at h
        have := ih (r + g) (remaining - min (ringCapacity r s).toNat remaining) (i + 1)
          idx rg h
        refine ⟨?_, ?_, ?_⟩
        · rw [this.1]; push_cast; ring_nf
        · rw [this.2.1]; congr 1; omega
        · rw [this.2.2]; congr 1; omega
    · simp [buildRingsFuel, if_neg hg] at h

/-! ### Lemmas about `canFit` -/

/-- `canFit` unfolded to the ring-builder loop. -/
theorem canFit_def (cw ch c : ℚ) (n : ℕ) (s : ℤ) :
    canFit cw ch c n s =
      ⟨(buildRingsFuel (min cw ch / 2 - 30) (s : ℚ) (max ((s : ℚ) * 0.95) 46) n
          (max (c + (s : ℚ) * 0.65 + 20) 90) n 0).2 == 0,
        (buildRingsFuel (min cw ch / 2 - 30) (s : ℚ) (max ((s : ℚ) * 0.95) 46) n
          (max (c + (s : ℚ) * 0.65 + 20) 90) n 0).1⟩ := rfl

/-- A fitting candidate's ring counts sum to exactly the item count. -/
theorem canFit_sum_of_fits (cw ch c : ℚ) (n : ℕ) (s : ℤ)
    (h : (canFit cw ch c n s).fits = true) :
    sumCounts (canFit cw ch c n s).rings = n := by
  have hs := buildRingsFuel_sum (min cw ch / 2 - 30) (s : ℚ) (max ((s : ℚ) * 0.95) 46) n
    (max (c + (s : ℚ) * 0.65 + 20) 90) n 0
  rw [canFit_def] at h ⊢
  simp only [beq_iff_eq] at h
  simpa [h] using hs

/-- With no items to place, the loop body never runs. -/
theorem canFit_zero_count (cw ch c : ℚ) (s : ℤ) :
    canFit cw ch c 0 s = ⟨true, []⟩ := rfl

/-- If the starting radius already exceeds the maximum allowed radius, the
loop body never runs: no ring is built, and with at least one item to place
the candidate does not fit. -/
theorem canFit_of_inner_exceeds (cw ch c : ℚ) (n : ℕ) (s : ℤ)
    (h : min cw ch / 2 - 30 < max (c + (s : ℚ) * 0.65 + 20) 90) :
    (canFit cw ch c n s).rings = [] ∧ (canFit cw ch c n s).fits = (n == 0) := by
  rw [canFit_def]
  cases n with
  | zero => simp [buildRingsFuel]
  | succ n =>
    have hg : ¬(max (c + (s : ℚ) * 0.65 + 20) 90 ≤ min cw ch / 2 - 30 ∧ 0 < n + 1) := by
      rintro ⟨h1, _⟩
      exact absurd h (not_lt.mpr h1)
    simp only [buildRingsFuel, if_neg hg]
    exact ⟨trivial, trivial⟩

/-! ### Lemmas about the binary search -/

/-- `Math.floor((low + high) / 2)` stays within the bounds. -/
theorem fdivTwo_bounds {low high : ℤ} (h : low ≤ high) :
    low ≤ Int.fdiv (low + high) 2 ∧ Int.fdiv (low + high) 2 ≤ high := by
  rw [Int.fdiv_eq_ediv _ (by norm_num)]
  omega

/-- Each loop iteration evaluates `canFit` exactly once, so the search never
evaluates more candidates than its fuel. -/
theorem searchAux_tested_length (cw ch c : ℚ) (n : ℕ) :
    ∀ fuel low high best bl tested,
      (searchAux cw ch c n fuel low high best bl tested).tested.length ≤
        tested.length + fuel := by
  intro fuel
  induction fuel with
  | zero => intro low high best bl tested; simp [searchAux]
  | succ fuel ih =>
    intro low high best bl tested
    simp only [searchAux]
    by_cases hlh : low ≤ high
    · simp only [if_pos hlh]
      by_cases hf : (canFit cw ch c n (Int.fdiv (low + high) 2)).fits = true
      · simp only [if_pos hf]
        have := ih (Int.fdiv (low + high) 2 + 2) high (Int.fdiv (low + high) 2)
          (some (canFit cw ch c n (Int.fdiv (low + high) 2)).rings)
          (tested ++ [Int.fdiv (low + high) 2])
        simp only [List.length_append, List.length_cons, List.length_nil] at this
        omega
      · simp only [if_neg hf]
        have := ih low (Int.fdiv (low + high) 2 - 2) best bl
          (tested ++ [Int.fdiv (low + high) 2])
        simp only [List.length_append, List.length_cons, List.length_nil] at this
        omega
    · simp only [if_neg hlh, SearchOut.tested]
      omega

/-- If every candidate between the current bounds fails, the loop changes
neither `best` nor `bestLayout`. -/
theorem searchAux_of_all_fail (cw ch c : ℚ) (n : ℕ) :
    ∀ fuel low high best bl tested,
      (∀ s : ℤ, low ≤ s → s ≤ high → (canFit cw ch c n s).fits = false) →
      (searchAux cw ch c n fuel low high best bl tested).best = best ∧
      (searchAux cw ch c n fuel low high best bl tested).bestLayout = bl := by
  intro fuel
  induction fuel with
  | zero => intro low high best bl tested _; exact ⟨rfl, rfl⟩
  | succ fuel ih =>
    intro low high best bl tested hall
    simp only [searchAux]
    by_cases hlh : low ≤ high
    · have hmid := fdivTwo_bounds hlh
      have hfail := hall _ hmid.1 hmid.2
      simp only [if_pos hlh, hfail]
      simp only [Bool.false_eq_true, if_false]
      exact ih low (Int.fdiv (low + high) 2 - 2) best bl
        (tested ++ [Int.fdiv (low + high) 2])
        (fun s hs1 hs2 => hall s hs1 (by omega))
    · simp [if_neg hlh]

theorem searchAux_post (cw ch c : ℚ) (n : ℕ) (hi : ℤ) :
    ∀ fuel low high best bl tested,
      SearchInv cw ch c n hi low high best bl tested →
      SearchPost cw ch c n hi (searchAux cw ch c n fuel low high best bl tested) := by
  intro fuel
  induction fuel with
  | zero =>
    intro low high best bl tested hinv
    exact ⟨hinv.2.2.1, fun l hl => ⟨(hinv.2.2.2.1 l hl).1, (hinv.2.2.2.1 l hl).2.1,
      (hinv.2.2.2.1 l hl).2.2.1, (hinv.2.2.2.1 l hl).2.2.2.1⟩, hinv.2.2.2.2⟩
  | succ fuel ih =>
    intro low high best bl tested hinv
    obtain ⟨hlow, hhi, hnone, hsome, htested⟩ := hinv
    simp only [searchAux]
    by_cases hlh : low ≤ high
    · have hmid := fdivTwo_bounds hlh
      simp only [if_pos hlh]
      by_cases hf : (canFit cw ch c n (Int.fdiv (low + high) 2)).fits = true
      · simp only [if_pos hf]
        apply ih
        refine ⟨by omega, hhi, ?_, ?_, ?_⟩
        · intro h; cases h
        · intro l hl
          injection hl with hl
          exact ⟨hl.symm, hf, by omega, by omega, by omega⟩
        · intro t ht hft
          rcases List.mem_append.mp ht with ht | ht
          · cases hbl : bl with
            | none => exact absurd hft (by simp [(hnone hbl).2 t ht])
            | some l0 =>
              have h0 := hsome l0 hbl
              have := htested t ht hft
              omega
          · simp only [List.mem_singleton] at ht
            omega
      · simp only [if_neg hf]
        apply ih
        refine ⟨hlow, by omega, ?_, ?_, ?_⟩
        · intro hbl
          refine ⟨(hnone hbl).1, ?_⟩
          intro t ht
          rcases List.mem_append.mp ht with ht | ht
          · exact (hnone hbl).2 t ht
          · simp only [List.mem_singleton] at ht
            subst ht
            exact Bool.not_eq_true _ ▸ (by simpa using hf)
        · exact fun l hl => hsome l hl
        · intro t ht hft
          rcases List.mem_append.mp ht with ht | ht
          · exact htested t ht hft
          · simp only [List.mem_singleton] at ht
            subst ht
            exact absurd hft hf
    · simp only [if_neg hlh]
      exact ⟨hnone, fun l hl => ⟨(hsome l hl).1, (hsome l hl).2.1,
        (hsome l hl).2.2.1, (hsome l hl).2.2.2.1⟩, htested⟩

/-- The invariant holds at the loop entry, so the post-condition holds of the
whole search. -/
theorem layoutSearch_post (cw ch : ℚ) (n : ℕ) (c : ℚ) :
    SearchPost cw ch c n (searchHigh cw ch) (layoutSearch cw ch n c) := by
  apply searchAux_post
  refine ⟨by norm_num, le_refl _, ?_, ?_, ?_⟩
  · intro _
    exact ⟨rfl, by simp⟩
  · intro l hl
    cases hl
  · intro t ht
    simp at ht

/-- `layoutRings` written as a case split on the recorded best layout. -/
theorem layoutRings_eq_match (cw ch : ℚ) (n : ℕ) (c : ℚ) :
    layoutRings cw ch n c =
      match (layoutSearch cw ch n c).bestLayout with
      | some l => ⟨l, (layoutSearch cw ch n c).best⟩
      | none => ⟨(canFit cw ch c n 40).rings, (layoutSearch cw ch n c).best⟩ := rfl

/-- Whatever path `layoutRings` takes, the returned rings are exactly the ring
set that `canFit` produces on the returned bubble size, and that size is at
least 28. -/
theorem layoutRings_rings_eq (cw ch : ℚ) (n : ℕ) (c : ℚ) :
    (layoutRings cw ch n c).rings =
      (canFit cw ch c n (layoutRings cw ch n c).bubbleSize).rings ∧
    28 ≤ (layoutRings cw ch n c).bubbleSize := by
  have hp := layoutSearch_post cw ch n c
  cases hbl : (layoutSearch cw ch n c).bestLayout with
  | none =>
    have h40 := hp.1 hbl
    rw [layoutRings_eq_match, hbl]
    refine ⟨?_, ?_⟩
    · show (canFit cw ch c n 40).rings =
        (canFit cw ch c n (layoutSearch cw ch n c).best).rings
      rw [h40.1]
    · show (28 : ℤ) ≤ (layoutSearch cw ch n c).best
      rw [h40.1]
      norm_num
  | some l =>
    have h := hp.2.1 l hbl
    rw [layoutRings_eq_match, hbl]
    exact ⟨h.1, h.2.2.1⟩


/-! ### The claims -/

unseal Rat.mul Rat.add Rat.sub Rat.inv Rat.ofScientific

/-- C3: the ring capacity computation is a deterministic pure function of
(radius, bubbleSize): for all radius > 0 and bubbleSize > 0 it equals
max(4, floor(2 * pi * radius / (bubbleSize * 1.2))) (with `Math.PI` modelled
by `piRat`), so its result is always an integer at least 4, and identical
inputs always yield identical outputs. -/
theorem ringCapacity_spec (r s : ℚ) (hr : 0 < r) (hs : 0 < s) :
    ringCapacity r s = max 4 ⌊2 * piRat * r / (s * 1.2)⌋ ∧
    4 ≤ ringCapacity r s ∧
    ∀ r2 s2, r2 = r → s2 = s → ringCapacity r2 s2 = ringCapacity r s :=
  ⟨rfl, ringCapacity_ge_four r s, fun r2 s2 h1 h2 => by rw [h1, h2]⟩

theorem ringCapacity_spec_witness :
    (0 : ℚ) < 90 ∧ (0 : ℚ) < 40 ∧ ringCapacity 90 40 = 11 ∧ 4 ≤ ringCapacity 90 40 :=
  ⟨by norm_num, by norm_num, by decide,
    (ringCapacity_spec 90 40 (by norm_num) (by norm_num)).2.1⟩

/-- C4: for every placement request the size search terminates and evaluates
the `canFit` predicate on at most 18 candidate sizes: the list of candidates
tested by the bounded search loop never exceeds the iteration budget of 18. -/
theorem layoutSearch_tested_le_18 (cw ch : ℚ) (n : ℕ) (c : ℚ) :
    (layoutSearch cw ch n c).tested.length ≤ 18 := by
  simpa using searchAux_tested_length cw ch c n 18 28 (searchHigh cw ch) 40 none []

/-- C7: for every placement request with zero items, the returned plan
contains zero rings. -/
theorem layoutRings_zero_items (cw ch c : ℚ) :
    (layoutRings cw ch 0 c).rings = [] := by
  rw [(layoutRings_rings_eq cw ch 0 c).1, canFit_zero_count]

/-- C5: if no candidate size in the search range `[28, searchHigh]` is
feasible, `layoutRings` raises no error and returns the ring set produced by
evaluating `canFit` at size 40, with `bubbleSize = 40`, regardless of that
evaluation's feasibility. -/
theorem layoutRings_fallback_of_none_fit (cw ch c : ℚ) (n : ℕ)
    (h : ∀ s ∈ Finset.Icc (28 : ℤ) (searchHigh cw ch),
      (canFit cw ch c n s).fits = false) :
    layoutRings cw ch n c = ⟨(canFit cw ch c n 40).rings, 40⟩ := by
  have hall : ∀ s : ℤ, 28 ≤ s → s ≤ searchHigh cw ch →
      (canFit cw ch c n s).fits = false :=
    fun s h1 h2 => h s (Finset.mem_Icc.mpr ⟨h1, h2⟩)
  have hsf := searchAux_of_all_fail cw ch c n 18 28 (searchHigh cw ch) 40 none [] hall
  have hb : (layoutSearch cw ch n c).best = 40 := hsf.1
  have hbl : (layoutSearch cw ch n c).bestLayout = none := hsf.2
  rw [layoutRings_eq_match, hbl]
  show (⟨(canFit cw ch c n 40).rings, (layoutSearch cw ch n c).best⟩ : LayoutResult) = _
  rw [hb]

theorem layoutRings_fallback_of_none_fit_witness :
    layoutRings 400 400 500 0 = ⟨(canFit 400 400 0 500 40).rings, 40⟩ :=
  layoutRings_fallback_of_none_fit 400 400 0 500 (by decide)

/-- C10: when the maximum allowed radius `min(w, h)/2 - 30` is below the inner
starting radius `max(centerRadius + size*0.65 + 20, 90)` for every candidate
size, `layoutRings` returns a plan with zero rings, so the best-effort
fallback places no items at all although the item count is positive. -/
theorem layoutRings_empty_of_inner_exceeds (cw ch c : ℚ) (n : ℕ) (hn : 0 < n)
    (h : ∀ s : ℤ, 28 ≤ s → s ≤ searchHigh cw ch →
      min cw ch / 2 - 30 < max (c + (s : ℚ) * 0.65 + 20) 90) :
    (layoutRings cw ch n c).rings = [] ∧
    sumCounts (layoutRings cw ch n c).rings < n := by
  have h40 : (40 : ℤ) ≤ searchHigh cw ch :=
    le_trans (by norm_num) (le_max_left 56 _)
  have hfail : ∀ s : ℤ, 28 ≤ s → s ≤ searchHigh cw ch →
      (canFit cw ch c n s).fits = false := by
    intro s hs1 hs2
    rw [(canFit_of_inner_exceeds cw ch c n s (h s hs1 hs2)).2]
    simp only [beq_eq_false_iff_ne, ne_eq]
    omega
  have hsf := searchAux_of_all_fail cw ch c n 18 28 (searchHigh cw ch) 40 none [] hfail
  have hbl : (layoutSearch cw ch n c).bestLayout = none := hsf.2
  have hrings : (layoutRings cw ch n c).rings = (canFit cw ch c n 40).rings := by
    rw [layoutRings_eq_match, hbl]
  rw [hrings, (canFit_of_inner_exceeds cw ch c n 40 (h 40 (by norm_num) h40)).1]
  exact ⟨rfl, by simpa [sumCounts] using hn⟩

theorem layoutRings_empty_of_inner_exceeds_witness :
    (layoutRings 260 260 5 70).rings = [] ∧
    sumCounts (layoutRings 260 260 5 70).rings < 5 :=
  layoutRings_empty_of_inner_exceeds 260 260 70 5 (by norm_num)
    (fun s hs1 _ => by
      have hs : (28 : ℚ) ≤ (s : ℚ) := by exact_mod_cast hs1
      have h1 : min (260 : ℚ) 260 / 2 - 30 < (70 : ℚ) + (s : ℚ) * 0.65 + 20 := by
        rw [min_self]
        linarith
      exact lt_of_lt_of_le h1 (le_max_left _ _))

/-- C6: in every returned plan the ring radii strictly increase: the first
ring sits at radius `max(centerRadius + size*0.65 + 20, 90)` and each
following ring is exactly the positive gap `max(size*0.95, 46)` further out,
where `size` is the plan's bubble size. -/
theorem layoutRings_radii_structure (cw ch : ℚ) (n : ℕ) (c : ℚ) :
    0 < max (((layoutRings cw ch n c).bubbleSize : ℚ) * 0.95) 46 ∧
    (∀ rg, (layoutRings cw ch n c).rings[0]? = some rg →
      rg.radius = max (c + ((layoutRings cw ch n c).bubbleSize : ℚ) * 0.65 + 20) 90) ∧
    (∀ i a b, (layoutRings cw ch n c).rings[i]? = some a →
      (layoutRings cw ch n c).rings[i + 1]? = some b →
      b.radius = a.radius + max (((layoutRings cw ch n c).bubbleSize : ℚ) * 0.95) 46 ∧
      a.radius < b.radius) := by
  have hgap : (0 : ℚ) < max (((layoutRings cw ch n c).bubbleSize : ℚ) * 0.95) 46 :=
    lt_of_lt_of_le (by norm_num) (le_max_right _ _)
  refine ⟨hgap, ?_, ?_⟩
  · intro rg h0
    rw [(layoutRings_rings_eq cw ch n c).1, canFit_def] at h0
    have := (buildRingsFuel_get _ _ _ _ _ _ _ _ _ h0).1
    simpa using this
  · intro i a b ha hb
    rw [(layoutRings_rings_eq cw ch n c).1, canFit_def] at ha hb
    have h1 := (buildRingsFuel_get _ _ _ _ _ _ _ _ _ ha).1
    have h2 := (buildRingsFuel_get _ _ _ _ _ _ _ _ _ hb).1
    constructor
    · rw [h1, h2]; push_cast; ring
    · rw [h1, h2]
      have : ((i : ℚ) + 1) * max (((layoutRings cw ch n c).bubbleSize : ℚ) * 0.95) 46 =
          (i : ℚ) * max (((layoutRings cw ch n c).bubbleSize : ℚ) * 0.95) 46 +
          max (((layoutRings cw ch n c).bubbleSize : ℚ) * 0.95) 46 := by ring
      push_cast
      rw [this]
      linarith

theorem layoutRings_radii_structure_witness :
    (136 : ℚ) = 90 + max (((layoutRings 400 400 30 0).bubbleSize : ℚ) * 0.95) 46 ∧
    (90 : ℚ) < 136 :=
  (layoutRings_radii_structure 400 400 30 0).2.2 0 ⟨90, 12, 38, 80⟩ ⟨136, 18, 36, -74⟩
    (by decide) (by decide)

/-- C9: in every returned plan built from bubble size `s`, the per-ring size
at ring index `i` equals `max(26, floor(s * (1 - 0.03*i)))`, and sizes never
increase from the innermost ring outward. -/
theorem layoutRings_ring_size_formula (cw ch : ℚ) (n : ℕ) (c : ℚ) :
    (∀ (i : ℕ) (rg : RingDesc), (layoutRings cw ch n c).rings[i]? = some rg →
      rg.size = max 26 ⌊((layoutRings cw ch n c).bubbleSize : ℚ) * (1 - 0.03 * (i : ℚ))⌋) ∧
    (∀ (i j : ℕ) (a b : RingDesc), i ≤ j → (layoutRings cw ch n c).rings[i]? = some a →
      (layoutRings cw ch n c).rings[j]? = some b → b.size ≤ a.size) := by
  have hsz : ∀ (i : ℕ) (rg : RingDesc), (layoutRings cw ch n c).rings[i]? = some rg →
      rg.size = ringSize ((layoutRings cw ch n c).bubbleSize : ℚ) i := by
    intro i rg h0
    rw [(layoutRings_rings_eq cw ch n c).1, canFit_def] at h0
    have := (buildRingsFuel_get _ _ _ _ _ _ _ _ _ h0).2.1
    simpa using this
  have hs28 : (28 : ℚ) ≤ ((layoutRings cw ch n c).bubbleSize : ℚ) := by
    exact_mod_cast (layoutRings_rings_eq cw ch n c).2
  refine ⟨?_, ?_⟩
  · intro i rg h0
    rw [hsz i rg h0, ringSize]
    congr 2
    ring
  · intro i j a b hij ha hb
    rw [hsz i a ha, hsz j b hb, ringSize, ringSize]
    have hfac : ((layoutRings cw ch n c).bubbleSize : ℚ) * (1 - (j : ℚ) * 0.03) ≤
        ((layoutRings cw ch n c).bubbleSize : ℚ) * (1 - (i : ℚ) * 0.03) := by
      have hcast : (i : ℚ) ≤ (j : ℚ) := by exact_mod_cast hij
      nlinarith
    exact max_le_max (le_refl 26) (Int.floor_le_floor hfac)

theorem layoutRings_ring_size_formula_witness :
    ((38 : ℤ) = max 26 ⌊((layoutRings 400 400 30 0).bubbleSize : ℚ) * (1 - 0.03 * (0 : ℚ))⌋) ∧
    (36 : ℤ) ≤ 38 :=
  ⟨by simpa using (layoutRings_ring_size_formula 400 400 30 0).1 0 ⟨90, 12, 38, 80⟩ (by decide),
    (layoutRings_ring_size_formula 400 400 30 0).2 0 1 ⟨90, 12, 38, 80⟩ ⟨136, 18, 36, -74⟩
      (by norm_num) (by decide) (by decide)⟩

/-- C1 counterexample: for a 400x400 container, 18 items and center radius
100, the returned bubbleSize is 42, yet 43 is a feasible candidate in the
range [28, 56]: the plus/minus-2 stepping of the binary search skips 43. -/
theorem largestFitClaim_false : ¬ largestFitClaim 400 400 18 100 := by
  intro h
  have h43 : (43 : ℤ) ≤ (layoutRings 400 400 18 100).bubbleSize :=
    (h ⟨43, by norm_num, by decide, by decide⟩).2.2.2 43 (by norm_num) (by decide)
      (by decide)
  revert h43
  decide

/-- C1 (amended): whenever the binary search evaluates at least one feasible
candidate, the returned bubbleSize is a feasible candidate and is the largest
feasible size among the candidates the search actually evaluated (which may
exclude feasible sizes of the range that the plus/minus-2 stepping skips). -/
theorem layoutRings_best_of_tested (cw ch : ℚ) (n : ℕ) (c : ℚ)
    (h : ∃ t ∈ (layoutSearch cw ch n c).tested, (canFit cw ch c n t).fits = true) :
    (canFit cw ch c n (layoutRings cw ch n c).bubbleSize).fits = true ∧
    (layoutRings cw ch n c).bubbleSize = (layoutSearch cw ch n c).best ∧
    ∀ t ∈ (layoutSearch cw ch n c).tested, (canFit cw ch c n t).fits = true →
      t ≤ (layoutRings cw ch n c).bubbleSize := by
  obtain ⟨t0, ht0, hf0⟩ := h
  have hp := layoutSearch_post cw ch n c
  cases hbl : (layoutSearch cw ch n c).bestLayout with
  | none => exact absurd hf0 (by simp [(hp.1 hbl).2 t0 ht0])
  | some l =>
    have hs := hp.2.1 l hbl
    have hsize : (layoutRings cw ch n c).bubbleSize = (layoutSearch cw ch n c).best := by
      rw [layoutRings_eq_match, hbl]
    refine ⟨by rw [hsize]; exact hs.2.1, hsize, ?_⟩
    intro t ht hft
    rw [hsize]
    exact hp.2.2 t ht hft

theorem layoutRings_best_of_tested_witness :
    (canFit 400 400 100 18 (layoutRings 400 400 18 100).bubbleSize).fits = true ∧
    (layoutRings 400 400 18 100).bubbleSize = 42 :=
  ⟨(layoutRings_best_of_tested 400 400 18 100 ⟨42, by decide, by decide⟩).1, by decide⟩

/-- C2 counterexample: in a 200000000-square container with center radius
99999931.5 and one item, size 28 is feasible (within the range, whose upper
end is 16666666), but the 18-iteration budget elapses before the search ever
reaches a feasible candidate, so the fallback returns an empty plan placing
0 < 1 items. -/
theorem capacitySpecClaim_false :
    ¬ capacitySpecClaim 200000000 200000000 1 (199999863 / 2) := by
  intro h
  exact absurd (h ⟨28, by norm_num, by decide, by decide⟩) (by decide)

/-- C2 (amended): whenever the fallback path is not taken, i.e. the binary
search recorded a fitting layout, the ring counts of the returned plan sum to
at least the item count. -/
theorem layoutRings_capacity_of_found (cw ch : ℚ) (n : ℕ) (c : ℚ)
    (h : (layoutSearch cw ch n c).bestLayout.isSome = true) :
    n ≤ sumCounts (layoutRings cw ch n c).rings := by
  obtain ⟨l, hbl⟩ := Option.isSome_iff_exists.mp h
  have hp := (layoutSearch_post cw ch n c).2.1 l hbl
  rw [layoutRings_eq_match, hbl]
  show n ≤ sumCounts l
  have hsum : sumCounts l = n := by
    rw [hp.1]
    exact canFit_sum_of_fits cw ch c n _ hp.2.1
  omega

theorem layoutRings_capacity_of_found_witness :
    30 ≤ sumCounts (layoutRings 400 400 30 0).rings :=
  layoutRings_capacity_of_found 400 400 30 0 (by decide)

/-- C8 counterexample: in a 4000-square container with 100000 items, the
returned plan has a ring at index 14 with spin -4; since 80 - 6*14 = -4 is
negative it cannot be the magnitude of any spin, and indices 0 (spin 80) and
14 (spin -4) are two even-indexed rings of opposite sign. -/
theorem spinSpecClaim_false : ¬ spinSpecClaim (layoutRings 4000 4000 100000 0) := by
  rintro ⟨pos, hall⟩
  have h14 := (hall 14 ⟨734, 96, 26, -4⟩ (by decide)).2
  norm_num at h14

/-- C8 (amended): the spin at ring index i equals 80 - 6*i when i is even and
-(80 - 6*i) when i is odd; consecutive rings spin in opposite orientations,
but for i of at least 14 the factor 80 - 6*i is itself negative, so the
literal one-sign-per-parity pattern with magnitude 80 - 6*i holds only for
plans whose rings all have index below 14. -/
theorem layoutRings_spin_formula (cw ch : ℚ) (n : ℕ) (c : ℚ) :
    ∀ (i : ℕ) (rg : RingDesc), (layoutRings cw ch n c).rings[i]? = some rg →
      rg.spin = if i % 2 = 0 then 80 - 6 * (i : ℤ) else -(80 - 6 * (i : ℤ)) := by
  intro i rg h0
  rw [(layoutRings_rings_eq cw ch n c).1, canFit_def] at h0
  have := (buildRingsFuel_get _ _ _ _ _ _ _ _ _ h0).2.2
  rw [this]
  by_cases hi : i % 2 = 0 <;> simp [ringSpin, hi] <;> ring

theorem layoutRings_spin_formula_witness :
    (-74 : ℤ) = if 1 % 2 = 0 then 80 - 6 * ((1 : ℕ) : ℤ) else -(80 - 6 * ((1 : ℕ) : ℤ)) :=
  layoutRings_spin_formula 400 400 30 0 1 ⟨136, 18, 36, -74⟩ (by decide)
